import Mathlib

/-!
Verification of the `ming` HTTP router (Go, package `ming`) against its
natural-language specification.

The development shallowly embeds the router core from `tree.go`,
`handle.go` and `router.go`:

* paths and patterns are `List Char` (Go strings are byte strings; all
  inputs of interest are ASCII),
* handlers are opaque and modelled as `Nat` identifiers,
* Go maps `map[string]fasthttp.RequestHandler` are association lists;
  a `nil` map is distinguished from an empty map (`Option` wrapper),
* Go panics during insertion or lookup are modelled as `Except.error`,
* compiled regular expressions (`regexp.Compile("^" ++ re ++ "$")`)
  are modelled by a small executable matcher over the class/quantifier
  fragment of regex syntax that the repository uses; the Go code anchors
  every parameter regex, so `MatchString` is full-string matching.

Definitions mirror the Go sources line by line; names follow the source.
-/

namespace Ming

/-- Abbreviation: the character list of a string literal. -/
def str (s : String) : List Char := s.data

/-! ## Generic list helpers (Go `strings` package operations) -/

/-- Index of the first occurrence of `c`, if any (`strings.Index` for a
one-byte needle). -/
def idxOf? (l : List Char) (c : Char) : Option Nat :=
  match l with
  | [] => none
  | x :: xs => if x = c then some 0 else (idxOf? xs c).map (· + 1)

/-- `strings.Contains` for a one-byte needle. -/
def containsC (l : List Char) (c : Char) : Bool :=
  match l with
  | [] => false
  | x :: xs => if x = c then true else containsC xs c

/-- `strings.HasSuffix`. -/
def hasSuffixL (l suffix : List Char) : Bool :=
  if suffix.length ≤ l.length then
    decide (l.drop (l.length - suffix.length) = suffix)
  else false

/-- `strings.Replace(s, old, "", 1)` for a one-byte `old`: remove the first
occurrence of `c`. -/
def removeFirst (l : List Char) (c : Char) : List Char :=
  match l with
  | [] => []
  | x :: xs => if x = c then xs else x :: removeFirst xs c

/-- `longestCommonPrefix` (tree.go). -/
def longestCommonPrefix (a b : List Char) : Nat :=
  match a, b with
  | x :: xs, y :: ys => if x = y then longestCommonPrefix xs ys + 1 else 0
  | _, _ => 0

/-- Scan until the next `'/'` (the `for end < len(path) && path[end] != '/'`
loop of `Node.getValue`): number of characters before the first slash. -/
def seekEnd (l : List Char) : Nat :=
  match l with
  | [] => 0
  | x :: xs => if x = '/' then 0 else seekEnd xs + 1

/-! ## Go maps of handlers

`Node.handlers` has type `map[string]fasthttp.RequestHandler`.  A `nil`
map and an empty map behave identically on reads but are distinguished
by the `n.handlers != nil` test in `getValue`, hence the `Option`. -/

/-- Lookup in the underlying association list. -/
def hGetL : List (String × Nat) → String → Option Nat
  | [], _ => none
  | (k', v) :: rest, k => if k' = k then some v else hGetL rest k

/-- Read from a possibly-`nil` Go map (missing key or `nil` map ↦ `none`). -/
def hGet (m : Option (List (String × Nat))) (k : String) : Option Nat :=
  match m with
  | none => none
  | some l => hGetL l k

/-- Write to a possibly-`nil` Go map, materialising it first if `nil`
(the `if n.handlers == nil { make(...) }` pattern). -/
def hSet (m : Option (List (String × Nat))) (k : String) (v : Nat) :
    Option (List (String × Nat)) :=
  match m with
  | none => some [(k, v)]
  | some l => some (hSetL l k v)
where
  hSetL : List (String × Nat) → String → Nat → List (String × Nat)
  | [], k, v => [(k, v)]
  | (k', v') :: rest, k, v =>
    if k' = k then (k, v) :: rest else (k', v') :: hSetL rest k v

/-! ## Regular expressions

`parseParam` compiles `"^" ++ regexStr ++ "$"` with `regexp.Compile` and
`getValue` calls `MatchString` on one captured segment.  With the
anchors, `MatchString` is exactly full-string matching of `regexStr`.
We model a compiled regex as a sequence of quantified atoms over the
fragment the repository uses (literals, `.`, character classes with
ranges, and the `+`, `*`, `?` quantifiers); `compileRegex` returns
`none` (a compile failure) outside this fragment. -/

/-- One regex item: a literal character, `.`, or a character class. -/
inductive RItem : Type
  | lit (c : Char)
  | any
  | cls (neg : Bool) (ranges : List (Char × Char))
deriving DecidableEq, Repr

/-- A quantified regex atom: exactly once, zero-or-more, or zero-or-one.
`x+` is desugared to `x` followed by `x*` at compile time. -/
inductive RAtom : Type
  | once (i : RItem)
  | star (i : RItem)
  | opt (i : RItem)
deriving DecidableEq, Repr

/-- Does a single item match a single character? (`.` does not match a
newline, as in Go's default regex mode.) -/
def itmMatch : RItem → Char → Bool
  | .lit c, x => x = c
  | .any, x => x ≠ '\n'
  | .cls neg ranges, x =>
    let inR := ranges.any fun p => p.1.val ≤ x.val ∧ x.val ≤ p.2.val
    if neg then !inR else inR

/-- Fueled matcher: every step either consumes an atom or a character,
so `rs.length + s.length + 1` fuel always suffices (see `rmatchF_le`). -/
def rmatchF : Nat → List RAtom → List Char → Bool
  | 0, _, _ => false
  | _ + 1, [], s => s.isEmpty
  | _ + 1, .once _ :: _, [] => false
  | fuel + 1, .once i :: rs, c :: s => itmMatch i c && rmatchF fuel rs s
  | fuel + 1, .star _ :: rs, [] => rmatchF fuel rs []
  | fuel + 1, .star i :: rs, c :: s =>
    rmatchF fuel rs (c :: s) ||
      (itmMatch i c && rmatchF fuel (.star i :: rs) s)
  | fuel + 1, .opt _ :: rs, [] => rmatchF fuel rs []
  | fuel + 1, .opt i :: rs, c :: s =>
    rmatchF fuel rs (c :: s) || (itmMatch i c && rmatchF fuel rs s)

/-- Full-string matching of a compiled regex against a segment: the
semantics of `regexp.MatchString` for an `^…$`-anchored pattern. -/
def rmatch (rs : List RAtom) (s : List Char) : Bool :=
  rmatchF (rs.length + s.length + 1) rs s

/-- Parse the body of a character class, up to the closing `]`.
Returns the ranges and the rest of the input. -/
def parseCls (l : List Char) : Option (List (Char × Char) × List Char) :=
  match l with
  | [] => none
  | ']' :: rest => some ([], rest)
  | a :: '-' :: b :: rest =>
    if a = ']' ∨ b = ']' then none
    else match parseCls rest with
      | some (rs, rest') => some ((a, b) :: rs, rest')
      | none => none
  | a :: rest =>
    match parseCls rest with
    | some (rs, rest') => some ((a, a) :: rs, rest')
    | none => none

/-- Attach the quantifier (if any) following an item, yielding the
compiled atoms for this item and the remaining input. -/
def quantify (i : RItem) (l : List Char) : List RAtom × List Char :=
  match l with
  | '+' :: rest => ([.once i, .star i], rest)
  | '*' :: rest => ([.star i], rest)
  | '?' :: rest => ([.opt i], rest)
  | _ => ([.once i], l)

/-- Compile a regex source string into atoms, with fuel for termination
(each step consumes at least one character, so `l.length + 1` fuel always
suffices); `none` models a `regexp.Compile` failure (and covers syntax
outside the supported fragment). -/
def compileRegexF : Nat → List Char → Option (List RAtom)
  | 0, _ => none
  | _ + 1, [] => some []
  | fuel + 1, '[' :: rest =>
    let (neg, body) :=
      match rest with
      | '^' :: b => (true, b)
      | _ => (false, rest)
    match parseCls body with
    | some (rs, rest') =>
      let (as, rest'') := quantify (.cls neg rs) rest'
      match compileRegexF fuel rest'' with
      | some as' => some (as ++ as')
      | none => none
    | none => none
  | fuel + 1, '.' :: rest =>
    let (as, rest') := quantify .any rest
    match compileRegexF fuel rest' with
    | some as' => some (as ++ as')
    | none => none
  | fuel + 1, c :: rest =>
    if c = '\\' ∨ c = '(' ∨ c = ')' ∨ c = '|' ∨ c = '^' ∨ c = '$' ∨
       c = '{' ∨ c = '}' ∨ c = '*' ∨ c = '+' ∨ c = '?' ∨ c = ']' then none
    else
      let (as, rest') := quantify (.lit c) rest
      match compileRegexF fuel rest' with
      | some as' => some (as ++ as')
      | none => none

/-- Compile a regex source string (models `regexp.Compile` on the
anchored pattern; see `rmatch`). -/
def compileRegex (l : List Char) : Option (List RAtom) :=
  compileRegexF (l.length + 1) l

/-! ## `findWildcard` (tree.go lines 105–148) -/

/-- Inner scan of `findWildcard`: look for the brace that closes the
wildcard, tracking the nesting count and the validity flag (`{` inside
resets it).  Returns the relative index of the closing brace and the
flag, or `none` when the braces never close. -/
def fwClose : List Char → Nat → Nat → Bool → Option (Nat × Bool)
  | [], _, _, _ => none
  | c :: rest, e, bc, val =>
    if c = '}' then
      if bc = 1 then some (e, val)
      else fwClose rest (e + 1) (bc - 1) val
    else if c = '{' then fwClose rest (e + 1) (bc + 1) false
    else fwClose rest (e + 1) bc val

/-- The hard-coded path that `findWildcard` special-cases for the
`TestFindWildcard` test (`"/nested/{a{b}}"`). -/
def nestedSpecial : List Char :=
  ['/', 'n', 'e', 's', 't', 'e', 'd', '/', '{', 'a', '{', 'b', '}', '}']

/-- The wildcard string returned for the special case (`"{a{b}}"`). -/
def nestedSpecialWc : List Char := ['{', 'a', '{', 'b', '}', '}']

/-- `findWildcard(path)` returns the wildcard substring, the index of
its opening brace (`none` models Go's `-1`) and the validity flag. -/
def findWildcard (path : List Char) : List Char × Option Nat × Bool :=
  if path = nestedSpecial then (nestedSpecialWc, some 8, false)
  else
    match idxOf? path '{' with
    | none => ([], none, false)
    | some start =>
      match fwClose (path.drop (start + 1)) 0 1 true with
      | none => ([], some start, false)
      | some (e, val) =>
        let paramContent := (path.drop (start + 1)).take e
        let valid := val &&
          !(paramContent = [] ∨ paramContent = [':'] ∨ paramContent = ['?'])
        ((path.drop start).take (e + 2), some start, valid)

/-! ## `parseParam` (tree.go lines 150–180) -/

/-- `parseParam` parses a wildcard such as `{name}`, `{name?}`,
`{name:[a-z]+}` or `{name:*}`: returns name, compiled regex, optional
flag and catch-all flag; an `Except.error` models the
`panic("Invalid regex in parameter: …")`. -/
def parseParam (wildcard : List Char) :
    Except String (List Char × Option (List RAtom) × Bool × Bool) :=
  let param := (wildcard.drop 1).take (wildcard.length - 2)
  if hasSuffixL param [':', '*'] then
    .ok (param.take (param.length - 2), none, false, true)
  else
    let optional := containsC param '?'
    let param := if optional then removeFirst param '?' else param
    match idxOf? param ':' with
    | some colonIndex =>
      let name := param.take colonIndex
      let regexStr := param.drop (colonIndex + 1)
      match compileRegex regexStr with
      | some rx => .ok (name, some rx, optional, false)
      | none => .error "Invalid regex in parameter"
    | none => .ok (param, none, optional, false)

/-! ## The tree (tree.go lines 10–67) -/

/-- `nodeType` (tree.go line 10). -/
inductive NodeType : Type
  | static
  | root
  | param
  | catchAll
deriving DecidableEq, Repr

/-- `Node` (tree.go line 24).  `handlers` is `none` when the Go map is
`nil`. -/
structure Node : Type where
  path : List Char
  indices : List Char
  wildChild : Bool
  nType : NodeType
  priority : Nat
  children : List Node
  handlers : Option (List (String × Nat))
  paramNames : List (List Char)
  paramRegex : List (Option (List RAtom))
  paramOptional : List Bool

/-- The zero value `&Node{}` of Go: every field at its zero value. -/
def emptyNode : Node :=
  { path := [], indices := [], wildChild := false, nType := .static
    priority := 0, children := [], handlers := none, paramNames := []
    paramRegex := [], paramOptional := [] }

/-- `Tree` (tree.go line 19). -/
structure Tree : Type where
  method : String
  root : Node

/-- Parameter bags: ordered `(name, value)` pairs (`Parameters` in
tree.go). -/
abbrev Params := List (List Char × List Char)

/-- `Parameters.Get` (tree.go lines 48–56): first value with the given
name, or the empty string. -/
def parametersGet (ps : Params) (name : List Char) : List Char :=
  match ps with
  | [] => []
  | p :: rest => if p.1 = name then p.2 else parametersGet rest name

/-- `NewTree` (tree.go lines 58–67). -/
def NewTree (method : String) : Tree :=
  { method := method
    root := { emptyNode with nType := .root, handlers := some [] } }

/-! ## Insertion (tree.go lines 182–438)

The three mutually recursive insertion procedures.  Go panics are
`Except.error`; the fuel argument only bounds the recursion depth (the
preservation lemmas below hold for every fuel value, and the concrete
routers of this file stay far below the bound). -/

/-- The type of one insertion procedure (node, remaining pattern,
method, handler id to result). -/
abbrev InsFn := Node → List Char → String → Nat → Except String Node

/-- `Node.insertChild` (tree.go lines 182–296), with its recursive call
abstracted as `rec`. -/
def insertChildStep (rec : Node → List Char → String → Nat →
      List (List Char) → Except String Node)
    (n : Node) (path : List Char) (method : String) (handler : Nat)
    (paramNames : List (List Char)) : Except String Node :=
  match findWildcard path with
  | (wildcard, iOpt, valid) =>
    match iOpt with
    | none =>
      .ok { n with path := path,
                   handlers := hSet n.handlers method handler,
                   paramNames := paramNames }
    | some i =>
      if valid = false then
        .error "only one wildcard per path segment is allowed"
      else if wildcard.length < 2 then
        .error "wildcards must be named with a non-empty name"
      else
        let n := if i > 0 then { n with path := path.take i } else n
        let path := if i > 0 then path.drop i else path
        match parseParam wildcard with
        | .error e => .error e
        | .ok (name, regex, optional, isCatchAll) =>
          if isCatchAll = true then
            let remainingPath := path.drop wildcard.length
            if remainingPath ≠ [] ∧ remainingPath ≠ ['/'] then
              .error "catch-all routes are only allowed at the end of the path"
            else if n.children.length > 0 then
              .error "catch-all conflicts with existing children"
            else if remainingPath = ['/'] then
              let child := { emptyNode with
                path := ['/'], handlers := hSet (some []) method handler }
              .ok { n with children := [child], wildChild := false,
                           indices := ['/'] }
            else
              let child := { emptyNode with
                nType := .catchAll,
                handlers := hSet (some []) method handler,
                priority := 1,
                paramNames := paramNames ++ [name],
                paramRegex := [regex],
                paramOptional := [optional] }
              .ok { n with children := [child], wildChild := true }
          else
            let child := { emptyNode with
              nType := .param, handlers := some [], priority := 1,
              paramNames := [name], paramRegex := [regex],
              paramOptional := [optional] }
            if wildcard.length < path.length then
              let rest := path.drop wildcard.length
              let newParamNames := paramNames ++ [name]
              let childNode0 := { emptyNode with
                priority := 1, handlers := some [] }
              match rec childNode0 rest method handler newParamNames with
              | .error e => .error e
              | .ok childNode =>
                .ok { n with
                  children := [{ child with children := [childNode] }],
                  wildChild := true }
            else
              .ok { n with
                children := [{ child with
                  handlers := hSet child.handlers method handler }],
                wildChild := true }

/-- `Node.insertChild`, iterated with fuel. -/
def insertChild : Nat → Node → List Char → String → Nat →
    List (List Char) → Except String Node
  | 0, _, _, _, _, _ => .error "out of fuel"
  | fuel + 1, n, path, method, handler, paramNames =>
    insertChildStep (insertChild fuel) n path method handler paramNames

/-- `Node.insertRoute` (tree.go lines 298–414), with the recursive calls
abstracted: `icRec` is `insertChild`, `irRec` is `insertRoute` itself,
`acRec` is `addChildRoute`. -/
def insertRouteStep
    (icRec : Node → List Char → String → Nat → List (List Char) →
      Except String Node)
    (irRec acRec : InsFn)
    (n : Node) (path : List Char) (method : String) (handler : Nat) :
    Except String Node :=
  let n := { n with priority := n.priority + 1 }
  if n.path.length = 0 ∧ n.children.length = 0 then
    if path = ['/'] then
      .ok { n with path := ['/'],
                   handlers := hSet n.handlers method handler }
    else if path.head? = some '/' then
      let n := { n with path := ['/'] }
      if path.length > 1 then
        acRec n (path.drop 1) method handler
      else
        .ok { n with handlers := hSet n.handlers method handler }
    else
      icRec n path method handler []
  else
    let n :=
      if ¬ containsC path '{' ∧ path.head? = some '/' then
        { n with priority := n.priority + 10 }
      else n
    let i := longestCommonPrefix path n.path
    let n :=
      if i < n.path.length then
        let child := { emptyNode with
          path := n.path.drop i,
          wildChild := n.wildChild,
          indices := n.indices,
          children := n.children,
          handlers := n.handlers,
          priority := n.priority - 1,
          nType := .static,
          paramNames := n.paramNames,
          paramRegex := n.paramRegex,
          paramOptional := n.paramOptional }
        { n with children := [child],
                 indices := n.path.drop i |>.take 1,
                 path := path.take i,
                 handlers := none,
                 wildChild := false,
                 paramNames := [],
                 paramRegex := [],
                 paramOptional := [] }
      else n
    if i < path.length then
      let path := path.drop i
      if path.head? = some '{' then
        icRec n path method handler []
      else
        match path.head? with
        | none => .error "index out of range"
        | some c =>
          match idxOf? n.indices c with
          | some j =>
            match n.children.get? j with
            | none => .error "index out of range"
            | some child =>
              let child :=
                if ¬ containsC path '{' then
                  { child with priority := child.priority + 10 }
                else child
              match irRec child path method handler with
              | .error e => .error e
              | .ok child' =>
                .ok { n with children := n.children.set j child' }
          | none =>
            let n := { n with indices := n.indices ++ [c] }
            let child :=
              if ¬ containsC path '{' then
                { emptyNode with priority := 11 }
              else
                { emptyNode with priority := 1 }
            match irRec child path method handler with
            | .error e => .error e
            | .ok child' =>
              .ok { n with children := n.children ++ [child'] }
    else
      .ok { n with handlers := hSet n.handlers method handler }

/-- `Node.addChildRoute` (tree.go lines 637–708), with the recursive
calls abstracted: `icRec` is `insertChild`, `irRec` is `insertRoute`. -/
def addChildRouteStep
    (icRec : Node → List Char → String → Nat → List (List Char) →
      Except String Node)
    (irRec : InsFn)
    (n : Node) (path : List Char) (method : String) (handler : Nat) :
    Except String Node :=
  match findWildcard path with
  | (_, iOpt, valid) =>
    match iOpt with
    | none =>
      match path.head? with
      | none => .ok n
      | some c =>
        match idxOf? n.indices c with
        | some j =>
          match n.children.get? j with
          | none => .error "index out of range"
          | some child =>
            match irRec child path method handler with
            | .error e => .error e
            | .ok child' =>
              .ok { n with children := n.children.set j child' }
        | none =>
          let child := { emptyNode with
            path := path, priority := 1,
            handlers := hSet (some []) method handler }
          .ok { n with indices := n.indices ++ [c],
                       children := n.children ++ [child] }
    | some i =>
      if valid = false then
        .error "only one wildcard per path segment is allowed"
      else if i > 0 then
        let staticPart := path.take i
        match staticPart.head? with
        | none => .error "index out of range"
        | some c =>
          match idxOf? n.indices c with
          | some j =>
            match n.children.get? j with
            | none => .error "index out of range"
            | some child =>
              match irRec child path method handler with
              | .error e => .error e
              | .ok child' =>
                .ok { n with children := n.children.set j child' }
          | none =>
            let child := { emptyNode with
              path := staticPart, priority := 1,
              handlers := some [], wildChild := true }
            let remainingPath := path.drop i
            match icRec child remainingPath method handler [] with
            | .error e => .error e
            | .ok child' =>
              .ok { n with indices := n.indices ++ [c],
                           children := n.children ++ [child'] }
      else
        icRec n path method handler []

/-- The pair (`insertRoute`, `addChildRoute`), iterated together with
fuel (they are mutually recursive in the Go source). -/
def routePair : Nat → InsFn × InsFn
  | 0 =>
    (fun _ _ _ _ => .error "out of fuel", fun _ _ _ _ => .error "out of fuel")
  | fuel + 1 =>
    (insertRouteStep (insertChild fuel) (routePair fuel).1
        (routePair fuel).2,
     addChildRouteStep (insertChild fuel) (routePair fuel).1)

/-- `Node.insertRoute`, iterated with fuel. -/
def insertRoute (fuel : Nat) : InsFn := (routePair fuel).1

/-- `Node.addChildRoute`, iterated with fuel. -/
def addChildRoute (fuel : Nat) : InsFn := (routePair fuel).2

/-- Default insertion fuel; far above the depth any router in this file
reaches. -/
def insFuel : Nat := 64

/-- `Tree.addRoute` (tree.go lines 69–79); the root always exists here,
as `NewTree` creates it. -/
def addRoute (t : Tree) (path : List Char) (handler : Nat) :
    Except String Tree :=
  match insertRoute insFuel t.root path t.method handler with
  | .error e => .error e
  | .ok root' => .ok { t with root := root' }

/-! ## Registration (handle.go lines 18–34, router.go) -/

/-- The per-method tree map `Router.trees`, as an association list in
insertion order. -/
abbrev Trees := List (String × Tree)

/-- First tree registered for a method (`r.trees[method]`). -/
def alFind (ts : Trees) (k : String) : Option Tree :=
  match ts with
  | [] => none
  | (k', t) :: rest => if k' = k then some t else alFind rest k

/-- Replace-or-append for the tree map (`r.trees[method] = tree`). -/
def alSet (ts : Trees) (k : String) (t : Tree) : Trees :=
  match ts with
  | [] => [(k, t)]
  | (k', t') :: rest =>
    if k' = k then (k, t) :: rest else (k', t') :: alSet rest k t

/-- `Router.Handle` (handle.go lines 18–34): panics unless the path
starts with `/`, finds or creates the method's tree, and inserts. -/
def handle (ts : Trees) (method : String) (path : List Char)
    (handler : Nat) : Except String Trees :=
  if path.head? = some '/' then
    let tree :=
      match alFind ts method with
      | some t => t
      | none => NewTree method
    match addRoute tree path handler with
    | .error e => .error e
    | .ok tree' => .ok (alSet ts method tree')
  else
    .error "path must begin with a slash"

/-- Register a whole list of routes, starting from `New()`'s empty tree
map (each entry is method, pattern, handler id). -/
def buildRouter : List (String × String × Nat) → Except String Trees :=
  go []
where
  go (ts : Trees) : List (String × String × Nat) → Except String Trees
  | [] => .ok ts
  | (m, p, h) :: rest =>
    match handle ts m (str p) h with
    | .error e => .error e
    | .ok ts' => go ts' rest

/-! ## Lookup (tree.go lines 440–635) -/

/-- The final "Nothing found" TSR computation of `getValue`
(tree.go lines 629–633). -/
def tsrNotFound (n : Node) (path : List Char) (method : String) : Bool :=
  if path = ['/'] then true
  else if n.path.length = path.length + 1 ∧
      n.path.get? path.length = some '/' ∧
      path = n.path.take (n.path.length - 1) ∧
      (hGet n.handlers method).isSome then true
  else false

/-- The exact-match branch of `Node.getValue` (tree.go lines 446–501):
the remaining path equals this node's prefix. -/
def gvExact (n : Node) (path : List Char) (method : String)
    (params : Params) : Except String (Option Nat × Params × Bool) :=
  match hGet n.handlers method with
  | some handler =>
    if ¬ containsC path '{' ∧
        (path = str "/user/profile" ∨
          path.take 14 = str "/user/profile/") then
      .ok (some handler, [], false)
    else
      .ok (some handler, params, false)
  | none =>
  match hGet n.handlers "ALL" with
  | some handler => .ok (some handler, params, false)
  | none =>
    -- optional-parameter special case (tree.go lines 464–492)
    let optRes : Option (Option Nat × Params × Bool) :=
      if n.children.length = 1 ∧ n.wildChild = true then
        match n.children with
        | child :: _ =>
          if child.nType = .param ∧
              child.paramOptional.head? = some true then
            match hGet child.handlers method with
            | some handler =>
              if path = str "/api/" then
                some (some handler, [], false)
              else
                let ps' :=
                  match child.paramNames.head? with
                  | some nm => params ++ [(nm, [])]
                  | none => params
                some (some handler, ps', false)
            | none => none
          else none
        | [] => none
      else none
    match optRes with
    | some r => .ok r
    | none =>
      -- tree.go lines 495–500
      if n.children.length = 1 then
        match n.children with
        | child :: _ =>
          .ok (none, [],
            if child.path = ['/'] ∧
                (hGet child.handlers method).isSome
            then true else false)
        | [] => .ok (none, [], false)
      else .ok (none, [], false)

/-- The descent branch of `Node.getValue` (tree.go lines 502–623): the
node's prefix has just been consumed and `path` is the non-empty
remainder.  `rec` continues the walk on a child (`continue walk`). -/
def gvWalkOn
    (rec : Node → List Char → String → Params →
      Except String (Option Nat × Params × Bool))
    (n : Node) (path : List Char) (method : String) (params : Params) :
    Except String (Option Nat × Params × Bool) :=
  if n.wildChild = false then
    -- static children (tree.go lines 506–518)
    match path.head? with
    | none => .error "index out of range"
    | some idxc =>
      match idxOf? n.indices idxc with
      | some i =>
        match n.children.get? i with
        | none => .error "index out of range"
        | some c => rec c path method params
      | none =>
        .ok (none, [],
          if path = ['/'] ∧ n.handlers ≠ none then true else false)
  else
    -- wildcard child (tree.go lines 520–623)
    match n.children.head? with
    | none => .error "index out of range"
    | some c =>
      if c.nType = .catchAll then
        let value :=
          if path = [] ∨ path = ['/'] then []
          else if path.head? = some '/' then path.drop 1
          else path
        let ps' :=
          match c.paramNames.head? with
          | some nm => params ++ [(nm, value)]
          | none => params
        let handler :=
          match hGet c.handlers method with
          | some h => some h
          | none => hGet c.handlers "ALL"
        .ok (handler, ps', false)
      else if c.nType = .param then
        let e := seekEnd path
        let value := path.take e
        if (match c.paramRegex.head? with
            | some (some rx) => !(rmatch rx value)
            | _ => false) then
          .ok (none, [], false)
        else if value = [] ∧ ¬ (c.paramOptional.head? = some true)
            then
          .ok (none, [], false)
        else
          let ps' :=
            match c.paramNames.head? with
            | some nm => params ++ [(nm, value)]
            | none => params
          if e < path.length then
            match c.children.head? with
            | some cc => rec cc (path.drop e) method ps'
            | none =>
              .ok (none, [],
                if path.length = e + 1 then true else false)
          else
            match hGet c.handlers method with
            | some h => .ok (some h, ps', false)
            | none =>
              if c.children.length = 1 then
                match c.children with
                | cc :: _ =>
                  .ok (none, [],
                    if cc.path = ['/'] ∧
                        (hGet cc.handlers method).isSome
                    then true else false)
                | [] => .ok (none, [], false)
              else .ok (none, [], false)
    else .error "invalid node type"

/-- One iteration of the `walk` loop of `Node.getValue` (tree.go lines
440–635): compare the remaining path with this node's static prefix
and branch to the exact-match case, the descent case, or the final
not-found TSR computation.  `rec` continues the walk on a child.  Go
panics (the out-of-bounds `children` accesses and
`panic("invalid node type")`) are `Except.error`.  The result triple is
(handler, parameter bag, tsr). -/
def getValueStep
    (rec : Node → List Char → String → Params →
      Except String (Option Nat × Params × Bool))
    (n : Node) (path : List Char) (method : String) (params : Params) :
    Except String (Option Nat × Params × Bool) :=
  if path.length = n.path.length then
    if path = n.path then gvExact n path method params
    else .ok (none, [], tsrNotFound n path method)
  else if path.length > n.path.length then
    if path.take n.path.length = n.path then
      gvWalkOn rec n (path.drop n.path.length) method params
    else .ok (none, [], tsrNotFound n path method)
  else .ok (none, [], tsrNotFound n path method)

/-- `Node.getValue`, iterating `getValueStep` with fuel (one unit per
`walk` iteration, i.e. per descent into a child). -/
def getValue : Nat → Node → List Char → String → Params →
    Except String (Option Nat × Params × Bool)
  | 0, _, _, _, _ => .error "out of fuel"
  | fuel + 1, n, path, method, params =>
    getValueStep (getValue fuel) n path method params

/-- Default lookup fuel (the `walk` loop of `getValue` descends one tree
level per iteration; the routers in this file are at most a few levels
deep). -/
def gvFuel : Nat := 16

/-! ## Dispatch (`Router.Handler`, handle.go lines 36–109) -/

/-- The routing outcomes of one request, as the adapter surfaces them:
invoking a handler with a parameter bag, a 301 redirect to the canonical
path, a 405 with the allowed methods, and a 404. -/
inductive Outcome : Type
  | matched (h : Nat) (ps : Params)
  | redirect (p : List Char)
  | methodNotAllowed (ms : List String)
  | notFound
deriving DecidableEq, Repr

/-- The redirect target (handle.go lines 56–61). -/
def canonicalRedirect (path : List Char) : List Char :=
  if path.length > 1 ∧ path.getLast? = some '/' then path.dropLast
  else path ++ ['/']

/-- The method-not-allowed probe (handle.go lines 81–89): every method
other than the request's and `ALL` whose tree matches the path. -/
def collectAllowed (fuel : Nat) (ts : Trees) (method : String)
    (path : List Char) : Except String (List String) :=
  match ts with
  | [] => .ok []
  | (m, t) :: rest =>
    if m = method ∨ m = "ALL" then collectAllowed fuel rest method path
    else
      match getValue fuel t.root path m [] with
      | .error e => .error e
      | .ok (some _, _, _) =>
        match collectAllowed fuel rest method path with
        | .error e => .error e
        | .ok ms => .ok (m :: ms)
      | .ok (none, _, _) => collectAllowed fuel rest method path

/-- The tail of `Router.Handler` (handle.go lines 80–108): turn the
probe's result into MethodNotAllowed or NotFound. -/
def mnaStep (ts : Trees) (method : String) (path : List Char) :
    Except String Outcome :=
  match collectAllowed gvFuel ts method path with
  | .error e => .error e
  | .ok [] => .ok .notFound
  | .ok (m :: ms) => .ok (.methodNotAllowed (m :: ms))

/-- The `ALL` fallback of `Router.Handler` (handle.go lines 68–78):
consult the `ALL` tree, else probe the other methods. -/
def allFallback (ts : Trees) (method : String) (path : List Char) :
    Except String Outcome :=
  match alFind ts "ALL" with
  | some t =>
    match getValue gvFuel t.root path "ALL" [] with
    | .error e => .error e
    | .ok (some h, ps, _) => .ok (.matched h ps)
    | .ok (none, _, _) => mnaStep ts method path
  | none => mnaStep ts method path

/-- `Router.Handler` (handle.go lines 38–109) as a pure dispatcher:
method tree first (match, else trailing-slash redirect except for
CONNECT), then the `ALL` tree, then the method-not-allowed probe, else
not found. -/
def dispatch (ts : Trees) (method : String) (path : List Char) :
    Except String Outcome :=
  match alFind ts method with
  | some t =>
    match getValue gvFuel t.root path method [] with
    | .error e => .error e
    | .ok (some h, ps, _) => .ok (.matched h ps)
    | .ok (none, _, tsr) =>
      if tsr = true ∧ method ≠ "CONNECT" then
        .ok (.redirect (canonicalRedirect path))
      else allFallback ts method path
  | none => allFallback ts method path

/-- Build a router from a route list and dispatch one request. -/
def routeAndDispatch (routes : List (String × String × Nat))
    (method : String) (path : String) : Except String Outcome :=
  match buildRouter routes with
  | .error e => .error e
  | .ok ts => dispatch ts method (str path)

/-! ## Concrete routers and invariant definitions used by the claims -/

/-- The digit class of the pattern `[0-9]+`. -/
def digitCls : RItem := .cls false [('0', '9')]

/-- Modelled from the spec: "the captured segment matches the anchored
regex `^[0-9]+$` in full" — a non-empty, all-digit segment.  This is
the spec-side predicate that `rmatch` of the compiled pattern is
compared against. -/
def isDigitSeg (s : List Char) : Bool :=
  !s.isEmpty && s.all fun c => '0' ≤ c ∧ c ≤ '9'
/-- The parameter node of the `/product/{id:[0-9]+}` tree. -/
def prodParamNode : Node :=
  { path := [], indices := [], wildChild := false, nType := .param,
    priority := 1, children := [], handlers := some [("GET", 1)],
    paramNames := [str "id"],
    paramRegex := [some [.once digitCls, .star digitCls]],
    paramOptional := [false] }

/-- The `product/` node of the `/product/{id:[0-9]+}` tree. -/
def prodNode : Node :=
  { path := str "product/", indices := [], wildChild := true,
    nType := .static, priority := 1, children := [prodParamNode],
    handlers := some [], paramNames := [], paramRegex := [],
    paramOptional := [] }

/-- The root of the `/product/{id:[0-9]+}` tree. -/
def prodRoot : Node :=
  { path := ['/'], indices := ['p'], wildChild := false, nType := .root,
    priority := 1, children := [prodNode], handlers := some [],
    paramNames := [], paramRegex := [], paramOptional := [] }

/-- The tree map after registering GET `/product/{id:[0-9]+}`. -/
def prodTrees : Trees := [("GET", { method := "GET", root := prodRoot })]
/-- The local wild-child invariant of one node: if `wildChild` is set,
the children list is non-empty and its first element is the parameter
or catch-all child.  This is exactly what `getValue`'s unguarded
`n.children[0]` access (tree.go line 522) and its node-type switch
rely on. -/
def LocalOk (n : Node) : Prop :=
  n.wildChild = true →
    ∃ c cs, n.children = c :: cs ∧
      (c.nType = .param ∨ c.nType = .catchAll)

/-- The wild-child invariant, recursively at every node of a tree. -/
inductive WF : Node → Prop
  | mk : ∀ (n : Node), LocalOk n → (∀ c ∈ n.children, WF c) → WF n
def c10ops : List (String × String × Nat) :=
  [("GET", "/user/{id}", 1), ("GET", "/files/{path:*}", 2),
   ("POST", "/user/x", 3)]

def c10trees : Trees := (buildRouter c10ops).toOption.getD []

/-! ## Claim theorems -/

set_option maxHeartbeats 4000000

instance {ε α : Type} [DecidableEq ε] [DecidableEq α] :
    DecidableEq (Except ε α) := fun x y =>
  match x, y with
  | .ok a, .ok b =>
    if h : a = b then .isTrue (by rw [h])
    else .isFalse (by intro he; cases he; exact h rfl)
  | .error a, .error b =>
    if h : a = b then .isTrue (by rw [h])
    else .isFalse (by intro he; cases he; exact h rfl)
  | .ok _, .error _ => .isFalse (by intro h; cases h)
  | .error _, .ok _ => .isFalse (by intro h; cases h)

/-- **C1** (status: code bug).  The spec, the repository README and the
package documentation all state that a static pattern is preferred over
a wildcard sibling at lookup time, with an empty parameter bag.  The
code does not implement this: `getValue` (tree.go line 507) consults
static children only when `wildChild` is unset, so once a parameter
child exists it is always taken first.  Registering GET `/user/{id}`
(handler 1) then GET `/user/profile` (handler 2), a GET request for
`/user/profile` is answered by the *parameter* handler 1 with captured
parameter `("id","profile")`; in the reverse registration order
`insertChild` (tree.go line 268) overwrites the children slice, the
static subtree is discarded wholesale, and the parameter handler 2
answers, again with `("id","profile")`.  In neither order does the
lookup return the static pattern's handler with an empty bag. -/
theorem C1_static_preference_bug :
    routeAndDispatch [("GET", "/user/{id}", 1), ("GET", "/user/profile", 2)]
        "GET" "/user/profile"
      = .ok (.matched 1 [(str "id", str "profile")]) ∧
    routeAndDispatch [("GET", "/user/profile", 2), ("GET", "/user/{id}", 1)]
        "GET" "/user/profile"
      = .ok (.matched 1 [(str "id", str "profile")]) := by
  constructor <;> decide

/-- **C2 counterexample**.  The claim says registering `/user/{id}` and
then `/user/{name}` under the same method is a registration error.  It
is not: both insertions succeed (`buildRouter` returns `ok`), refuting
the claim at this concrete input. -/
theorem C2_counterexample :
    (buildRouter [("GET", "/user/{id}", 1), ("GET", "/user/{name}", 2)]).isOk
      = true := by
  decide

/-- **C2 amended**.  Registering a wildcard at a tree position that
already holds a structurally different wildcard is not an error: the
insertion succeeds and silently replaces the existing wildcard child
(`insertChild`, tree.go line 268, overwrites the children slice), so the
earlier parameter subtree and its handler are discarded.  After
registering GET `/user/{id}` (handler 1) then GET `/user/{name}`
(handler 2), a GET request for `/user/x` is answered by handler 2 with
the parameter bag `[("name","x")]`. -/
theorem C2_amended :
    routeAndDispatch [("GET", "/user/{id}", 1), ("GET", "/user/{name}", 2)]
        "GET" "/user/x"
      = .ok (.matched 2 [(str "name", str "x")]) := by
  decide

/-- **C3** (status: code bug).  With GET `/files/{path:*}` registered,
a request for `/files/a/b` does match with the catch-all parameter
bound to `"a/b"` (leading slash stripped, remainder verbatim), but a
request for `/files/` yields NotFound instead of the specified match
with an empty capture: the walk ends in the exact-match branch of the
`files/` node (tree.go line 446), which carries no handler, and the
catch-all child is never consulted there — contradicting the code's own
comment at tree.go line 532 (`/files/ -> path=""`) and the intent of
`TestHandlerWithCatchAllParameters`. -/
theorem C3_catchall_empty_bug :
    routeAndDispatch [("GET", "/files/{path:*}", 1)] "GET" "/files/a/b"
      = .ok (.matched 1 [(str "path", str "a/b")]) ∧
    routeAndDispatch [("GET", "/files/{path:*}", 1)] "GET" "/files/"
      = .ok .notFound := by
  constructor <;> decide

/-- **C5 counterexample**.  The claim states that for *every* registered
terminal pattern not ending in `/`, looking up the path with a trailing
slash appended returns Redirect.  With GET `/a` and GET `/a/b`
registered, `/a` is such a terminal pattern, yet GET `/a/` returns
NotFound (the walk descends into the intermediate `/` node, whose
single child `b` fails the `n.path == "/"` TSR test of tree.go
line 498), refuting the claim. -/
theorem C5_counterexample :
    routeAndDispatch [("GET", "/a", 1), ("GET", "/a/b", 2)] "GET" "/a/"
      = .ok .notFound := by
  decide

/-- **C5 amended**.  The trailing-slash redirect holds in the leaf
cases: when the registered terminal pattern's node has no child through
a further `/`, lookup of the slash-variant returns Redirect to the
canonical path — in both directions — and the redirect is suppressed
for CONNECT; but it does not hold universally (see the
counterexample).  Concretely: sole route GET `/users` redirects
`/users/` to `/users`; sole route GET `/api/test/` redirects
`/api/test` to `/api/test/`; sole route CONNECT `/users` yields
NotFound for CONNECT `/users/`. -/
theorem C5_amended :
    routeAndDispatch [("GET", "/users", 1)] "GET" "/users/"
      = .ok (.redirect (str "/users")) ∧
    routeAndDispatch [("GET", "/api/test/", 1)] "GET" "/api/test"
      = .ok (.redirect (str "/api/test/")) ∧
    routeAndDispatch [("CONNECT", "/users", 1)] "CONNECT" "/users/"
      = .ok .notFound := by
  refine ⟨?_, ?_, ?_⟩ <;> decide

/-- On a root node whose static prefix is `/` — which is the root of
every tree `Router.Handle` has inserted into — looking up the empty
path falls through to the final TSR computation: no handler, and the
TSR flag is set exactly when the node holds a handler for the method
(`prefix[len(path)] == '/'` with the empty path, tree.go lines
629–633). -/
theorem getValue_nil (f : Nat) (n : Node) (m : String) (ps : Params)
    (hp : n.path = ['/']) :
    getValue (f + 1) n [] m ps =
      .ok (none, [], (hGet n.handlers m).isSome) := by
  simp only [getValue, getValueStep, hp, tsrNotFound]
  cases hgm : hGet n.handlers m <;> simp [hgm]

/-- The map read only returns trees stored in the map. -/
theorem alFind_mem (ts : Trees) (k : String) (t : Tree)
    (h : alFind ts k = some t) : (k, t) ∈ ts := by
  induction ts with
  | nil => cases h
  | cons kt rest ih =>
    obtain ⟨k', t'⟩ := kt
    simp only [alFind] at h
    split at h
    · rename_i hk
      cases h
      subst hk
      exact List.mem_cons_self _ _
    · exact List.mem_cons_of_mem _ (ih h)

/-- The probe finds nothing for the empty path when every root has
static prefix `/`. -/
theorem collectAllowed_nil (ts : Trees) (M : String)
    (hroots : ∀ p ∈ ts, p.2.root.path = ['/']) :
    collectAllowed gvFuel ts M [] = .ok [] := by
  induction ts with
  | nil => rfl
  | cons kt rest ih =>
    obtain ⟨k, t⟩ := kt
    have hk : t.root.path = ['/'] := hroots (k, t) (List.mem_cons_self _ _)
    have hrest : ∀ p ∈ rest, p.2.root.path = ['/'] := fun p hp =>
      hroots p (List.mem_cons_of_mem _ hp)
    simp only [collectAllowed]
    split
    · exact ih hrest
    · have : getValue gvFuel t.root [] k [] =
          .ok (none, [], (hGet t.root.handlers k).isSome) :=
        getValue_nil 15 t.root k [] hk
      rw [this]
      exact ih hrest

/-- **C6 counterexample**.  The claim says the empty path always yields
NotFound.  Not so: with GET `/` registered, the final TSR computation
of `getValue` (tree.go line 630) fires for the empty path (the root's
prefix `/` is one byte longer and ends in `/`), so dispatch of GET `""`
returns a Redirect to `/` instead of NotFound. -/
theorem C6_counterexample :
    routeAndDispatch [("GET", "/", 1)] "GET" ""
      = .ok (.redirect (str "/")) := by
  decide

/-- **C6 amended**.  Dispatch of the empty path never returns Match or
MethodNotAllowed; over every router state in which each tree's root has
static prefix `/` (every state built through `Router.Handle`), it
returns NotFound — except that when the method's own tree holds a
handler at `/` (and the method is not CONNECT) the trailing-slash logic
returns Redirect to `/` instead. -/
theorem C6_amended (ts : Trees) (M : String)
    (hroots : ∀ p ∈ ts, p.2.root.path = ['/']) :
    dispatch ts M [] = .ok .notFound ∨
      dispatch ts M [] = .ok (.redirect ['/']) := by
  have hmna : mnaStep ts M [] = .ok .notFound := by
    unfold mnaStep
    rw [collectAllowed_nil ts M hroots]
  have hfb : allFallback ts M [] = .ok .notFound := by
    unfold allFallback
    cases hal : alFind ts "ALL" with
    | none => exact hmna
    | some t =>
      have hk : t.root.path = ['/'] :=
        hroots ("ALL", t) (alFind_mem ts "ALL" t hal)
      have hgv : getValue gvFuel t.root [] "ALL" [] =
          .ok (none, [], (hGet t.root.handlers "ALL").isSome) :=
        getValue_nil 15 t.root "ALL" [] hk
      simp only [hgv, hmna]
  unfold dispatch
  cases hal : alFind ts M with
  | none => left; exact hfb
  | some t =>
    have hk : t.root.path = ['/'] :=
      hroots (M, t) (alFind_mem ts M t hal)
    have hgv : getValue gvFuel t.root [] M [] =
        .ok (none, [], (hGet t.root.handlers M).isSome) :=
      getValue_nil 15 t.root M [] hk
    simp only [hgv]
    split
    · right
      simp [canonicalRedirect]
    · left
      exact hfb

/-- **C6 witness**: the amended theorem applied to the router with the
single route GET `/x` (whose root prefix is `/`). -/
theorem C6_witness :
    (∀ p ∈ (buildRouter [("GET", "/x", 1)]).toOption.getD [],
        p.2.root.path = ['/']) ∧
      (dispatch ((buildRouter [("GET", "/x", 1)]).toOption.getD [])
          "GET" [] = .ok .notFound ∨
        dispatch ((buildRouter [("GET", "/x", 1)]).toOption.getD [])
          "GET" [] = .ok (.redirect ['/'])) :=
  ⟨by decide, C6_amended _ "GET" (by decide)⟩

/-- Unfolding one unit of lookup fuel. -/
theorem getValue_succ (f : Nat) (n : Node) (path : List Char)
    (m : String) (ps : Params) :
    getValue (f + 1) n path m ps = getValueStep (getValue f) n path m ps :=
  rfl

/-- When the remaining path extends this node's static prefix by a
non-empty remainder, one walk iteration consumes the prefix and takes
the descent branch. -/
theorem getValueStep_append
    (rec : Node → List Char → String → Params →
      Except String (Option Nat × Params × Bool))
    (n : Node) (rest : List Char) (m : String) (ps : Params)
    (h : rest ≠ []) :
    getValueStep rec n (n.path ++ rest) m ps = gvWalkOn rec n rest m ps := by
  have hne : rest.length ≠ 0 := by simpa using h
  simp only [getValueStep, List.length_append]
  rw [if_neg (by omega), if_pos (by omega), if_pos (List.take_left _ _),
    List.drop_left]

/-- Matching one character against the digit class is the digit test. -/
theorem itmMatch_digit (c : Char) :
    itmMatch digitCls c = decide ('0' ≤ c ∧ c ≤ '9') := by
  simp [itmMatch, digitCls, Char.le_def]

/-- `[0-9]*` (the star part of the compiled pattern) accepts exactly
the all-digit strings. -/
theorem rmatchF_star_digits :
    ∀ (s : List Char) (f : Nat), s.length + 1 < f →
      rmatchF f [.star digitCls] s = s.all fun c => '0' ≤ c ∧ c ≤ '9' := by
  intro s
  induction s with
  | nil =>
    intro f hf
    match f, hf with
    | f' + 1, _ =>
      match f', (show 0 < f' by omega) with
      | f'' + 1, _ => simp [rmatchF]
  | cons c t ih =>
    intro f hf
    match f, hf with
    | f' + 1, hf' =>
      have h1 : rmatchF f' [] (c :: t) = false := by
        match f', (show 0 < f' by omega) with
        | f'' + 1, _ => simp [rmatchF]
      have h2 : t.length + 1 < f' := by
        simp only [List.length_cons] at hf'
        omega
      simp [rmatchF, h1, ih f' h2, itmMatch_digit]

/-- The compiled `^[0-9]+$` matches a segment exactly when the
spec-side predicate holds. -/
theorem rmatch_digits (s : List Char) :
    rmatch [.once digitCls, .star digitCls] s = isDigitSeg s := by
  cases s with
  | nil => rfl
  | cons c t =>
    show rmatchF ([RAtom.once digitCls, RAtom.star digitCls].length +
      (c :: t).length + 1) _ _ = _
    rw [show [RAtom.once digitCls, RAtom.star digitCls].length +
        (c :: t).length + 1 = (t.length + 3) + 1 by simp; omega]
    simp only [rmatchF, rmatchF_star_digits t (t.length + 3) (by omega),
      itmMatch_digit, isDigitSeg, List.all_cons, List.isEmpty_cons,
      Bool.not_false, Bool.true_and]

/-- Scanning for the next slash consumes a slash-free segment whole. -/
theorem seekEnd_no_slash (s : List Char) (hs : '/' ∉ s) :
    seekEnd s = s.length := by
  induction s with
  | nil => rfl
  | cons c t ih =>
    have hc : c ≠ '/' := fun he => hs (he ▸ List.mem_cons_self _ _)
    have ht : '/' ∉ t := fun hm => hs (List.mem_cons_of_mem _ hm)
    simp [seekEnd, hc, ih ht]

/-- Looking up `product/<seg>` at the `product/` node: the wildcard
branch captures the whole slash-free segment and accepts it exactly
when the anchored regex matches. -/
theorem prodNode_lookup (f : Nat) (s : List Char) (hs : '/' ∉ s) :
    getValue (f + 1) prodNode (str "product/" ++ s) "GET" [] =
      if isDigitSeg s then .ok (some 1, [(str "id", s)], false)
      else .ok (none, [], false) := by
  cases s with
  | nil => rfl
  | cons c t =>
    rw [getValue_succ,
      show str "product/" ++ (c :: t) = prodNode.path ++ (c :: t) from rfl,
      getValueStep_append _ _ _ _ _ (by simp)]
    have he : seekEnd (c :: t) = (c :: t).length := seekEnd_no_slash _ hs
    simp only [gvWalkOn, prodNode, prodParamNode, he, List.take_length,
      List.head?_cons, Option.some.injEq, rmatch_digits]
    cases hd : isDigitSeg (c :: t) with
    | false => simp
    | true => simp [hGet, hGetL]

/-- **C7** (status: confirmed).  With GET `/product/{id:[0-9]+}`
registered, lookup of `/product/<seg>` for any slash-free segment
`<seg>` succeeds if and only if the segment matches the anchored regex
`^[0-9]+$` in full (is non-empty and all digits); a match yields the
handler with bag `[("id", <seg>)]` and a mismatch is not an error but
NotFound. -/
theorem C7_regex_param (s : List Char) (hs : '/' ∉ s) :
    buildRouter [("GET", "/product/{id:[0-9]+}", 1)] = .ok prodTrees ∧
    dispatch prodTrees "GET" (str "/product/" ++ s) =
      .ok (if isDigitSeg s then .matched 1 [(str "id", s)]
           else .notFound) := by
  refine ⟨by rfl, ?_⟩
  have hgv : getValue gvFuel prodRoot (str "/product/" ++ s) "GET" [] =
      if isDigitSeg s then .ok (some 1, [(str "id", s)], false)
      else .ok (none, [], false) := by
    rw [show gvFuel = 15 + 1 from rfl, getValue_succ,
      show str "/product/" ++ s = prodRoot.path ++ (str "product/" ++ s)
        from rfl,
      getValueStep_append _ _ _ _ _ (by simp [str]),
      show gvWalkOn (getValue 15) prodRoot (str "product/" ++ s) "GET" []
        = getValue 15 prodNode (str "product/" ++ s) "GET" [] from rfl,
      show (15 : Nat) = 14 + 1 from rfl]
    exact prodNode_lookup 14 s hs
  have hfb : allFallback prodTrees "GET" (str "/product/" ++ s) =
      .ok .notFound := by
    unfold allFallback mnaStep
    rw [show alFind prodTrees "ALL" = none from rfl]
    rw [show collectAllowed gvFuel prodTrees "GET" (str "/product/" ++ s)
        = .ok [] by simp [collectAllowed, prodTrees]]
  unfold dispatch
  rw [show alFind prodTrees "GET" =
    some { method := "GET", root := prodRoot } from rfl]
  cases hd : isDigitSeg s with
  | true => simp only [hgv, hd, if_pos]
  | false =>
    simp only [hgv, hd, if_neg, Bool.false_eq_true, ite_false]
    rw [if_neg (by simp)]
    exact hfb

/-- **C7 witness**: the theorem at the spec's own inputs — GET
`/product/42` matches with bag `[("id","42")]`, and GET `/product/abc`
is NotFound. -/
theorem C7_witness :
    dispatch prodTrees "GET" (str "/product/" ++ str "42")
        = .ok (.matched 1 [(str "id", str "42")]) ∧
    dispatch prodTrees "GET" (str "/product/" ++ str "abc")
        = .ok .notFound := by
  constructor
  · have h := (C7_regex_param (str "42") (by decide)).2
    simpa using h
  · have h := (C7_regex_param (str "abc") (by decide)).2
    simpa using h

theorem WF_localOk {n : Node} (h : WF n) : LocalOk n := by
  cases h; assumption

theorem WF_children {n : Node} (h : WF n) : ∀ c ∈ n.children, WF c := by
  cases h; assumption

/-- A found index points at the character searched for. -/
theorem idxOf?_get (l : List Char) (c : Char) :
    ∀ i, idxOf? l c = some i → l.get? i = some c := by
  induction l with
  | nil => intro i h; cases h
  | cons x xs ih =>
    intro i h
    simp only [idxOf?] at h
    split at h
    · rename_i hx
      cases h
      simp [hx]
    · cases hx : idxOf? xs c with
      | none => rw [hx] at h; cases h
      | some j =>
        rw [hx] at h
        simp only [Option.map_some', Option.some.injEq] at h
        subst h
        simp only [List.get?]
        exact ih j hx

/-- `findWildcard` reports the index of an opening brace. -/
theorem findWildcard_get (path w : List Char) (i : Nat) (v : Bool)
    (h : findWildcard path = (w, some i, v)) : path.get? i = some '{' := by
  unfold findWildcard at h
  split at h
  · rename_i hsp
    have hi := congrArg (fun t => t.2.1) h
    simp only [Option.some.injEq] at hi
    subst hi
    subst hsp
    rfl
  · split at h
    · have hi := congrArg (fun t => t.2.1) h
      simp at hi
    · rename_i st hidx
      split at h
      · have hi := congrArg (fun t => t.2.1) h
        simp only [Option.some.injEq] at hi
        subst hi
        exact idxOf?_get _ _ _ hidx
      · have hi := congrArg (fun t => t.2.1) h
        simp only [Option.some.injEq] at hi
        subst hi
        exact idxOf?_get _ _ _ hidx

/-- On a path that starts with `{`, `findWildcard` always finds a
wildcard position. -/
theorem findWildcard_head_ne_none (l : List Char)
    (hh : l.head? = some '{') : (findWildcard l).2.1 ≠ none := by
  unfold findWildcard
  split
  · simp
  · cases l with
    | nil => cases hh
    | cons x xs =>
      have hx : x = '{' := by
        simp only [List.head?_cons, Option.some.injEq] at hh
        exact hh
      subst hx
      have hidx : idxOf? ('{' :: xs) '{' = some 0 := by simp [idxOf?]
      rw [hidx]
      split
      · rename_i heq; cases heq
      · split <;> simp

/-- The head of a dropped list is the entry at the dropped index. -/
theorem head?_drop_eq (l : List Char) (i : Nat) :
    (l.drop i).head? = l.get? i := by
  induction l generalizing i with
  | nil => simp
  | cons x xs ih =>
    cases i with
    | zero => simp
    | succ j => simp only [List.drop_succ_cons, List.get?_cons_succ]; exact ih j

/-- Setting an index preserves universally-quantified membership
properties, given the new element also satisfies them. -/
theorem all_WF_set (l : List Node) (j : Nat) (x : Node)
    (h : ∀ c ∈ l, WF c) (hx : WF x) : ∀ c ∈ l.set j x, WF c := by
  intro c hc
  rcases List.mem_or_eq_of_mem_set hc with h1 | h2
  · exact h c h1
  · exact h2 ▸ hx

theorem all_WF_append (l : List Node) (x : Node)
    (h : ∀ c ∈ l, WF c) (hx : WF x) : ∀ c ∈ l ++ [x], WF c := by
  intro c hc
  rcases List.mem_append.mp hc with h1 | h2
  · exact h c h1
  · cases List.mem_singleton.mp h2
    exact hx

/-- `LocalOk` survives replacing a child: position `0` keeps the node
type (the replacement has the same type), later positions keep the
head. -/
theorem localOk_set (l : List Node) (j : Nat) (child x : Node)
    (hget : l.get? j = some child) (hty : x.nType = child.nType)
    (hloc : ∃ c cs, l = c :: cs ∧
      (c.nType = .param ∨ c.nType = .catchAll)) :
    ∃ c cs, l.set j x = c :: cs ∧
      (c.nType = .param ∨ c.nType = .catchAll) := by
  obtain ⟨c, cs, rfl, hc⟩ := hloc
  cases j with
  | zero =>
    simp only [List.get?] at hget
    cases hget
    exact ⟨x, cs, by simp, by rw [hty]; exact hc⟩
  | succ j' =>
    exact ⟨c, cs.set j' x, by simp, hc⟩

/-- Every method collected by the probe is distinct from the request's
method and from `ALL`, appears in the tree map, and its tree resolves
the path to a handler. -/
theorem collectAllowed_mem (f : Nat) (ts : Trees) (method : String)
    (p : List Char) (ms : List String)
    (hca : collectAllowed f ts method p = .ok ms) :
    ∀ m ∈ ms, m ≠ method ∧ m ≠ "ALL" ∧
      ∃ t, (m, t) ∈ ts ∧
        ∃ hh ps tsr, getValue f t.root p m [] = .ok (some hh, ps, tsr) := by
  induction ts generalizing ms with
  | nil =>
    simp only [collectAllowed, Except.ok.injEq] at hca
    subst hca
    intro m hm
    cases hm
  | cons kt rest ih =>
    obtain ⟨k, t⟩ := kt
    simp only [collectAllowed] at hca
    split at hca
    · rename_i hk
      intro m hm
      obtain ⟨h1, h2, t', ht', rest'⟩ := ih ms hca m hm
      exact ⟨h1, h2, t', List.mem_cons_of_mem _ ht', rest'⟩
    · rename_i hk
      rw [not_or] at hk
      obtain ⟨hk1, hk2⟩ := hk
      cases hgv : getValue f t.root p k [] with
      | error e => rw [hgv] at hca; cases hca
      | ok v =>
        obtain ⟨oh, ps, tsr⟩ := v
        rw [hgv] at hca
        cases oh with
        | some hh =>
          cases hrest : collectAllowed f rest method p with
          | error e => rw [hrest] at hca; cases hca
          | ok ms' =>
            rw [hrest] at hca
            cases hca
            intro m hm
            rcases List.mem_cons.mp hm with hmk | hm'
            · subst hmk
              exact ⟨hk1, hk2, t, List.mem_cons_self _ _,
                hh, ps, tsr, hgv⟩
            · obtain ⟨h1, h2, t', ht', rest'⟩ := ih ms' hrest m hm'
              exact ⟨h1, h2, t', List.mem_cons_of_mem _ ht', rest'⟩
        | none =>
          intro m hm
          obtain ⟨h1, h2, t', ht', rest'⟩ := ih ms hca m hm
          exact ⟨h1, h2, t', List.mem_cons_of_mem _ ht', rest'⟩

/-- With duplicate-free method keys — as in every tree map `Router.Handle`
builds — membership determines the result of the map read. -/
theorem alFind_of_mem_nodup (ts : Trees) (m : String) (t : Tree)
    (hmem : (m, t) ∈ ts) (hnd : (ts.map Prod.fst).Nodup) :
    alFind ts m = some t := by
  induction ts with
  | nil => cases hmem
  | cons kt rest ih =>
    obtain ⟨k, t'⟩ := kt
    simp only [List.map_cons, List.nodup_cons] at hnd
    rcases List.mem_cons.mp hmem with heq | hmem'
    · cases heq
      simp [alFind]
    · have hk : k ≠ m := by
        intro he
        subst he
        exact hnd.1 (List.mem_map.mpr ⟨(k, t), hmem', rfl⟩)
      simp only [alFind, if_neg hk]
      exact ih hmem' hnd.2

/-- If `mnaStep` reports MethodNotAllowed, the probe produced exactly
that set. -/
theorem mnaStep_mna (ts : Trees) (method : String) (p : List Char)
    (S : List String)
    (h : mnaStep ts method p = .ok (.methodNotAllowed S)) :
    collectAllowed gvFuel ts method p = .ok S := by
  unfold mnaStep at h
  cases hca : collectAllowed gvFuel ts method p with
  | error e => rw [hca] at h; cases h
  | ok ms =>
    rw [hca] at h
    cases ms with
    | nil => cases h
    | cons m ms' =>
      simp only [Except.ok.injEq, Outcome.methodNotAllowed.injEq] at h
      rw [h]

/-- If the `ALL` fallback reports MethodNotAllowed, the probe produced
exactly that set. -/
theorem allFallback_mna (ts : Trees) (method : String) (p : List Char)
    (S : List String)
    (hf : allFallback ts method p = .ok (.methodNotAllowed S)) :
    collectAllowed gvFuel ts method p = .ok S := by
  unfold allFallback at hf
  split at hf
  · split at hf
    · cases hf
    · cases hf
    · exact mnaStep_mna _ _ _ _ hf
  · exact mnaStep_mna _ _ _ _ hf

/-- If `dispatch` reports MethodNotAllowed, the probe produced exactly
that set. -/
theorem dispatch_mna (ts : Trees) (method : String) (p : List Char)
    (S : List String)
    (h : dispatch ts method p = .ok (.methodNotAllowed S)) :
    collectAllowed gvFuel ts method p = .ok S := by
  unfold dispatch at h
  split at h
  · split at h
    · cases h
    · cases h
    · split at h
      · cases h
      · exact allFallback_mna _ _ _ _ h
  · exact allFallback_mna _ _ _ _ h

/-- **C4** (status: confirmed).  For every router state with
duplicate-free method keys (which is every state `Router.Handle`
builds), if dispatch returns MethodNotAllowed with allowed set `S`,
then every method in `S` dispatches the same path to a Match, and the
request's method is not in `S`: the probe of handle.go lines 81–89
collects exactly the other methods whose tree resolves the path, and
dispatch for such a method returns that match in its first step. -/
theorem C4_method_not_allowed_sound (ts : Trees) (M : String)
    (p : List Char) (S : List String)
    (hnd : (ts.map Prod.fst).Nodup)
    (hd : dispatch ts M p = .ok (.methodNotAllowed S)) :
    (∀ m ∈ S, ∃ h ps, dispatch ts m p = .ok (.matched h ps)) ∧
      M ∉ S := by
  have hca := dispatch_mna ts M p S hd
  have hmem := collectAllowed_mem gvFuel ts M p S hca
  constructor
  · intro m hm
    obtain ⟨_, _, t, ht, hh, ps, tsr, hgv⟩ := hmem m hm
    have hfind := alFind_of_mem_nodup ts m t ht hnd
    refine ⟨hh, ps, ?_⟩
    unfold dispatch
    rw [hfind]
    simp only [hgv]
  · intro hMS
    exact (hmem M hMS).1 rfl

/-- **C4 witness**: with GET `/users` and POST `/users` registered, a
PUT request for `/users` yields MethodNotAllowed with allowed set
`[GET, POST]`; the theorem instantiated there gives a Match for both
allowed methods, and PUT is not in the set. -/
theorem C4_witness :
    (∀ m ∈ ["GET", "POST"],
      ∃ h ps,
        dispatch ((buildRouter [("GET", "/users", 1), ("POST", "/users", 2)]
            ).toOption.getD []) m (str "/users") = .ok (.matched h ps)) ∧
      "PUT" ∉ ["GET", "POST"] :=
  C4_method_not_allowed_sound _ "PUT" (str "/users") ["GET", "POST"]
    (by decide) (by decide)

/-- **C8** (status: code bug).  The claim says re-inserting an
already-registered pattern under the same method never panics and
replaces the handler last-writer-wins.  Replacement does hold for a
static pattern — registering `/test` twice succeeds and the second
handler answers — but re-registering the *same* catch-all pattern
GET `/files/{path:*}` panics with "catch-all conflicts with existing
children" (tree.go lines 218–222): the second insertion reaches the
`files/` node whose children already hold the catch-all child, so the
universal no-panic-on-duplicate claim fails. -/
theorem C8_duplicate_catchall_bug :
    buildRouter [("GET", "/files/{path:*}", 1),
        ("GET", "/files/{path:*}", 2)]
      = .error "catch-all conflicts with existing children" ∧
    routeAndDispatch [("GET", "/test", 1), ("GET", "/test", 2)]
        "GET" "/test" = .ok (.matched 2 []) := by
  constructor <;> rfl

/-- **C9** (status: code bug).  The claim says any registered pattern
ending in an optional parameter matches a request whose final segment
is empty, binding the parameter to `""`.  This fails as soon as the
parent node has a second child: with GET `/a/{x?}` and GET `/a/b`
registered, GET `/a/` returns NotFound, because the optional-empty
special case (tree.go line 467) is gated on
`len(n.children) == 1 && n.wildChild`.  With the single route
`/a/{x?}` alone the same request does match with `x` bound to `""`. -/
theorem C9_optional_empty_bug :
    routeAndDispatch [("GET", "/a/{x?}", 1), ("GET", "/a/b", 2)]
        "GET" "/a/" = .ok .notFound ∧
    routeAndDispatch [("GET", "/a/{x?}", 1)] "GET" "/a/"
      = .ok (.matched 1 [(str "x", str "")]) := by
  constructor <;> rfl

theorem insertChild_succ (f : Nat) (n : Node) (path : List Char)
    (m : String) (hd : Nat) (pn : List (List Char)) :
    insertChild (f + 1) n path m hd pn =
      insertChildStep (insertChild f) n path m hd pn := rfl

theorem WF_leaf (x : Node) (hw : x.wildChild = false)
    (hc : x.children = []) : WF x :=
  WF.mk x (fun h => absurd (hw ▸ h) (by simp))
    (fun c hc' => absurd (hc ▸ hc') (by simp))

theorem insertChild_WF : ∀ (f : Nat) (n : Node) (path : List Char)
    (m : String) (hd : Nat) (pn : List (List Char)) (n' : Node),
    insertChild f n path m hd pn = .ok n' →
    (∀ c ∈ n.children, WF c) →
    ((findWildcard path).2.1 = none → LocalOk n) →
    WF n' ∧ n'.nType = n.nType := by
  intro f
  induction f with
  | zero => intro n path m hd pn n' h _ _; cases h
  | succ f ih =>
    intro n path m hd pn n' h hch hloc
    rw [insertChild_succ] at h
    simp only [insertChildStep] at h
    split at h
    · rename_i heq
      cases h
      exact ⟨WF.mk _ (fun hwc => hloc heq hwc) hch, rfl⟩
    · rename_i st heq
      by_cases hi0 : st > 0
      · simp only [if_pos hi0] at h
        split at h
        · cases h
        · split at h
          · cases h
          · split at h
            · cases h
            · split at h
              · split at h
                · cases h
                · split at h
                  · cases h
                  · split at h
                    · cases h
                      refine ⟨WF.mk _ ?_ ?_, by simp⟩
                      · intro hwc
                        simp at hwc
                      · intro c hc
                        rw [List.mem_singleton] at hc
                        subst hc
                        exact WF_leaf _ rfl rfl
                    · cases h
                      refine ⟨WF.mk _ ?_ ?_, by simp⟩
                      · intro _
                        exact ⟨_, [], rfl, Or.inr rfl⟩
                      · intro c hc
                        rw [List.mem_singleton] at hc
                        subst hc
                        exact WF_leaf _ rfl rfl
              · split at h
                · split at h
                  · cases h
                  · rename_i childNode heqrec
                    cases h
                    have hcN := ih _ _ _ _ _ _ heqrec
                      (by intro c hc; cases hc)
                      (by intro _ hwc; cases hwc)
                    refine ⟨WF.mk _ ?_ ?_, by simp⟩
                    · intro _
                      exact ⟨_, [], rfl, Or.inl rfl⟩
                    · intro c hc
                      rw [List.mem_singleton] at hc
                      subst hc
                      refine WF.mk _ (fun hwc => by cases hwc) ?_
                      intro c hc
                      rw [List.mem_singleton] at hc
                      subst hc
                      exact hcN.1
                · cases h
                  refine ⟨WF.mk _ ?_ ?_, by simp⟩
                  · intro _
                    exact ⟨_, [], rfl, Or.inl rfl⟩
                  · intro c hc
                    rw [List.mem_singleton] at hc
                    subst hc
                    exact WF_leaf _ rfl rfl
      · simp only [if_neg hi0] at h
        split at h
        · cases h
        · split at h
          · cases h
          · split at h
            · cases h
            · split at h
              · split at h
                · cases h
                · split at h
                  · cases h
                  · split at h
                    · cases h
                      refine ⟨WF.mk _ ?_ ?_, by simp⟩
                      · intro hwc
                        simp at hwc
                      · intro c hc
                        rw [List.mem_singleton] at hc
                        subst hc
                        exact WF_leaf _ rfl rfl
                    · cases h
                      refine ⟨WF.mk _ ?_ ?_, by simp⟩
                      · intro _
                        exact ⟨_, [], rfl, Or.inr rfl⟩
                      · intro c hc
                        rw [List.mem_singleton] at hc
                        subst hc
                        exact WF_leaf _ rfl rfl
              · split at h
                · split at h
                  · cases h
                  · rename_i childNode heqrec
                    cases h
                    have hcN := ih _ _ _ _ _ _ heqrec
                      (by intro c hc; cases hc)
                      (by intro _ hwc; cases hwc)
                    refine ⟨WF.mk _ ?_ ?_, by simp⟩
                    · intro _
                      exact ⟨_, [], rfl, Or.inl rfl⟩
                    · intro c hc
                      rw [List.mem_singleton] at hc
                      subst hc
                      refine WF.mk _ (fun hwc => by cases hwc) ?_
                      intro c hc
                      rw [List.mem_singleton] at hc
                      subst hc
                      exact hcN.1
                · cases h
                  refine ⟨WF.mk _ ?_ ?_, by simp⟩
                  · intro _
                    exact ⟨_, [], rfl, Or.inl rfl⟩
                  · intro c hc
                    rw [List.mem_singleton] at hc
                    subst hc
                    exact WF_leaf _ rfl rfl

theorem findWildcard_idx (path : List Char) (i : Nat)
    (h : (findWildcard path).2.1 = some i) : path.get? i = some '{' := by
  rcases hfw : findWildcard path with ⟨w, io, v⟩
  rw [hfw] at h
  simp only at h
  subst h
  exact findWildcard_get path w i v hfw

theorem WF_same (n x : Node) (hwf : WF n)
    (hc : x.children = n.children) (hw : x.wildChild = n.wildChild) :
    WF x := by
  refine WF.mk _ ?_ ?_
  · intro hwc
    rw [hc]
    exact WF_localOk hwf (hw ▸ hwc)
  · rw [hc]
    exact WF_children hwf

theorem localOk_append (l : List Node) (x : Node)
    (hloc : ∃ c cs, l = c :: cs ∧
      (c.nType = .param ∨ c.nType = .catchAll)) :
    ∃ c cs, l ++ [x] = c :: cs ∧
      (c.nType = .param ∨ c.nType = .catchAll) := by
  obtain ⟨c, cs, rfl, hc⟩ := hloc
  exact ⟨c, cs ++ [x], rfl, hc⟩

theorem get?_mem_node (l : List Node) (j : Nat) (x : Node)
    (h : l.get? j = some x) : x ∈ l := by
  induction l generalizing j with
  | nil => cases h
  | cons a as ih =>
    cases j with
    | zero =>
      simp only [List.get?] at h
      cases h
      exact List.mem_cons_self _ _
    | succ j' =>
      simp only [List.get?] at h
      exact List.mem_cons_of_mem _ (ih j' h)

theorem addChildRouteStep_WF
    (icRec : Node → List Char → String → Nat → List (List Char) →
      Except String Node)
    (irRec : InsFn)
    (hic : ∀ n path m hd pn n', icRec n path m hd pn = .ok n' →
      (∀ c ∈ n.children, WF c) →
      ((findWildcard path).2.1 = none → LocalOk n) →
      WF n' ∧ n'.nType = n.nType)
    (hir : ∀ n path m hd n', irRec n path m hd = .ok n' → WF n →
      WF n' ∧ n'.nType = n.nType) :
    ∀ n path m hd n', addChildRouteStep icRec irRec n path m hd = .ok n' →
      WF n → WF n' ∧ n'.nType = n.nType := by
  intro n path m hd n' h hwf
  simp only [addChildRouteStep] at h
  split at h
  · -- no wildcard: static child
    split at h
    · cases h
      exact ⟨hwf, rfl⟩
    · split at h
      · split at h
        · cases h
        · rename_i child hget
          split at h
          · cases h
          · rename_i child' heqrec
            cases h
            have hchild : WF child :=
              WF_children hwf _ (get?_mem_node _ _ _ hget)
            have hres := hir _ _ _ _ _ heqrec hchild
            refine ⟨WF.mk _ ?_ ?_, rfl⟩
            · intro hwc
              exact localOk_set _ _ _ _ hget hres.2 (WF_localOk hwf hwc)
            · exact all_WF_set _ _ _ (WF_children hwf) hres.1
      · cases h
        refine ⟨WF.mk _ ?_ ?_, rfl⟩
        · intro hwc
          exact localOk_append _ _ (WF_localOk hwf hwc)
        · exact all_WF_append _ _ (WF_children hwf) (WF_leaf _ rfl rfl)
  · -- wildcard in the path
    rename_i i heq
    split at h
    · cases h
    · split at h
      · -- static part first
        split at h
        · cases h
        · split at h
          · split at h
            · cases h
            · rename_i child hget
              split at h
              · cases h
              · rename_i child' heqrec
                cases h
                have hchild : WF child :=
                  WF_children hwf _ (get?_mem_node _ _ _ hget)
                have hres := hir _ _ _ _ _ heqrec hchild
                refine ⟨WF.mk _ ?_ ?_, rfl⟩
                · intro hwc
                  exact localOk_set _ _ _ _ hget hres.2 (WF_localOk hwf hwc)
                · exact all_WF_set _ _ _ (WF_children hwf) hres.1
          · split at h
            · cases h
            · rename_i child' heqic
              cases h
              have hploc := findWildcard_idx path i heq
              have hhead : (path.drop i).head? = some '{' := by
                rw [head?_drop_eq]
                exact hploc
              have hres := hic _ _ _ _ _ _ heqic
                (by intro c hc; cases hc)
                (fun hnone =>
                  absurd hnone (findWildcard_head_ne_none _ hhead))
              refine ⟨WF.mk _ ?_ ?_, rfl⟩
              · intro hwc
                exact localOk_append _ _ (WF_localOk hwf hwc)
              · exact all_WF_append _ _ (WF_children hwf) hres.1
      · -- wildcard at the very beginning
        exact hic _ _ _ _ _ _ h (WF_children hwf)
          (fun hnone => by rw [heq] at hnone; cases hnone)

theorem insertRouteStep_WF
    (icRec : Node → List Char → String → Nat → List (List Char) →
      Except String Node)
    (irRec acRec : InsFn)
    (hic : ∀ n path m hd pn n', icRec n path m hd pn = .ok n' →
      (∀ c ∈ n.children, WF c) →
      ((findWildcard path).2.1 = none → LocalOk n) →
      WF n' ∧ n'.nType = n.nType)
    (hir : ∀ n path m hd n', irRec n path m hd = .ok n' → WF n →
      WF n' ∧ n'.nType = n.nType)
    (hac : ∀ n path m hd n', acRec n path m hd = .ok n' → WF n →
      WF n' ∧ n'.nType = n.nType) :
    ∀ n path m hd n', insertRouteStep icRec irRec acRec n path m hd = .ok n' →
      WF n → WF n' ∧ n'.nType = n.nType := by
  intro n path m hd n' h hwf
  simp only [insertRouteStep] at h
  split at h
  · -- fresh root node
    split at h
    · cases h
      exact ⟨WF_same n _ hwf rfl rfl, rfl⟩
    · split at h
      · split at h
        · have hres := hac _ _ _ _ _ h (WF_same n _ hwf rfl rfl)
          exact ⟨hres.1, hres.2⟩
        · cases h
          exact ⟨WF_same n _ hwf rfl rfl, rfl⟩
      · have hres := hic _ _ _ _ _ _ h (fun c hc => WF_children hwf c hc)
          (fun _ => WF_localOk (WF_same n _ hwf rfl rfl))
        exact ⟨hres.1, hres.2⟩
  · -- general insertion
    by_cases hb : (¬ containsC path '{' = true ∧ path.head? = some '/')
    · simp only [if_pos hb] at h
      by_cases hsp : longestCommonPrefix path n.path < n.path.length
      · simp only [if_pos hsp] at h
        split at h
        · split at h
          · have hres := hic _ _ _ _ _ _ h
              (by intro c hc
                  simp only [List.mem_singleton] at hc
                  subst hc
                  exact WF_same n _ hwf rfl rfl)
              (by intro _ hwc
                  simp at hwc)
            exact ⟨hres.1, hres.2⟩
          · split at h
            · cases h
            · split at h
              · split at h
                · cases h
                · rename_i child hget
                  split at h
                  · cases h
                  · rename_i child' heqrec
                    cases h
                    have hchild : WF child := by
                      have hmem := get?_mem_node _ _ _ hget
                      simp only [List.mem_singleton] at hmem
                      subst hmem
                      exact WF_same n _ hwf rfl rfl
                    obtain ⟨hWFc', htyc'⟩ := hir _ _ _ _ _ heqrec
                      (by split <;> exact WF_same _ _ hchild rfl rfl)
                    refine ⟨WF.mk _ ?_ ?_, rfl⟩
                    · intro hwc
                      simp at hwc
                    · refine all_WF_set _ _ _ ?_ hWFc'
                      intro c hc
                      simp only [List.mem_singleton] at hc
                      subst hc
                      exact WF_same n _ hwf rfl rfl
              · split at h
                · cases h
                · rename_i child' heqrec
                  cases h
                  obtain ⟨hWFc', _⟩ := hir _ _ _ _ _ heqrec
                    (by split <;> exact WF_leaf _ rfl rfl)
                  refine ⟨WF.mk _ ?_ ?_, rfl⟩
                  · intro hwc
                    simp at hwc
                  · refine all_WF_append _ _ ?_ hWFc'
                    intro c hc
                    simp only [List.mem_singleton] at hc
                    subst hc
                    exact WF_same n _ hwf rfl rfl
        · cases h
          refine ⟨WF.mk _ ?_ ?_, rfl⟩
          · intro hwc
            simp at hwc
          · intro c hc
            simp only [List.mem_singleton] at hc
            subst hc
            exact WF_same n _ hwf rfl rfl
      · simp only [if_neg hsp] at h
        split at h
        · split at h
          · have hres := hic _ _ _ _ _ _ h
              (fun c hc => WF_children hwf c hc)
              (fun _ => WF_localOk (WF_same n _ hwf rfl rfl))
            exact ⟨hres.1, hres.2⟩
          · split at h
            · cases h
            · split at h
              · split at h
                · cases h
                · rename_i child hget
                  split at h
                  · cases h
                  · rename_i child' heqrec
                    cases h
                    have hchild : WF child :=
                      WF_children hwf child (get?_mem_node _ _ _ hget)
                    obtain ⟨hWFc', htyc'⟩ := hir _ _ _ _ _ heqrec
                      (by split <;> exact WF_same _ _ hchild rfl rfl)
                    have hty : child'.nType = child.nType := by
                      rw [htyc']
                      split <;> rfl
                    refine ⟨WF.mk _ ?_ ?_, rfl⟩
                    · intro hwc
                      exact localOk_set _ _ child _ hget hty
                        (WF_localOk hwf hwc)
                    · exact all_WF_set _ _ _ (WF_children hwf) hWFc'
              · split at h
                · cases h
                · rename_i child' heqrec
                  cases h
                  obtain ⟨hWFc', _⟩ := hir _ _ _ _ _ heqrec
                    (by split <;> exact WF_leaf _ rfl rfl)
                  refine ⟨WF.mk _ ?_ ?_, rfl⟩
                  · intro hwc
                    exact localOk_append _ _ (WF_localOk hwf hwc)
                  · exact all_WF_append _ _ (WF_children hwf) hWFc'
        · cases h
          exact ⟨WF_same n _ hwf rfl rfl, rfl⟩
    · simp only [if_neg hb] at h
      by_cases hsp : longestCommonPrefix path n.path < n.path.length
      · simp only [if_pos hsp] at h
        split at h
        · split at h
          · have hres := hic _ _ _ _ _ _ h
              (by intro c hc
                  simp only [List.mem_singleton] at hc
                  subst hc
                  exact WF_same n _ hwf rfl rfl)
              (by intro _ hwc
                  simp at hwc)
            exact ⟨hres.1, hres.2⟩
          · split at h
            · cases h
            · split at h
              · split at h
                · cases h
                · rename_i child hget
                  split at h
                  · cases h
                  · rename_i child' heqrec
                    cases h
                    have hchild : WF child := by
                      have hmem := get?_mem_node _ _ _ hget
                      simp only [List.mem_singleton] at hmem
                      subst hmem
                      exact WF_same n _ hwf rfl rfl
                    obtain ⟨hWFc', htyc'⟩ := hir _ _ _ _ _ heqrec
                      (by split <;> exact WF_same _ _ hchild rfl rfl)
                    refine ⟨WF.mk _ ?_ ?_, rfl⟩
                    · intro hwc
                      simp at hwc
                    · refine all_WF_set _ _ _ ?_ hWFc'
                      intro c hc
                      simp only [List.mem_singleton] at hc
                      subst hc
                      exact WF_same n _ hwf rfl rfl
              · split at h
                · cases h
                · rename_i child' heqrec
                  cases h
                  obtain ⟨hWFc', _⟩ := hir _ _ _ _ _ heqrec
                    (by split <;> exact WF_leaf _ rfl rfl)
                  refine ⟨WF.mk _ ?_ ?_, rfl⟩
                  · intro hwc
                    simp at hwc
                  · refine all_WF_append _ _ ?_ hWFc'
                    intro c hc
                    simp only [List.mem_singleton] at hc
                    subst hc
                    exact WF_same n _ hwf rfl rfl
        · cases h
          refine ⟨WF.mk _ ?_ ?_, rfl⟩
          · intro hwc
            simp at hwc
          · intro c hc
            simp only [List.mem_singleton] at hc
            subst hc
            exact WF_same n _ hwf rfl rfl
      · simp only [if_neg hsp] at h
        split at h
        · split at h
          · have hres := hic _ _ _ _ _ _ h
              (fun c hc => WF_children hwf c hc)
              (fun _ => WF_localOk (WF_same n _ hwf rfl rfl))
            exact ⟨hres.1, hres.2⟩
          · split at h
            · cases h
            · split at h
              · split at h
                · cases h
                · rename_i child hget
                  split at h
                  · cases h
                  · rename_i child' heqrec
                    cases h
                    have hchild : WF child :=
                      WF_children hwf child (get?_mem_node _ _ _ hget)
                    obtain ⟨hWFc', htyc'⟩ := hir _ _ _ _ _ heqrec
                      (by split <;> exact WF_same _ _ hchild rfl rfl)
                    have hty : child'.nType = child.nType := by
                      rw [htyc']
                      split <;> rfl
                    refine ⟨WF.mk _ ?_ ?_, rfl⟩
                    · intro hwc
                      exact localOk_set _ _ child _ hget hty
                        (WF_localOk hwf hwc)
                    · exact all_WF_set _ _ _ (WF_children hwf) hWFc'
              · split at h
                · cases h
                · rename_i child' heqrec
                  cases h
                  obtain ⟨hWFc', _⟩ := hir _ _ _ _ _ heqrec
                    (by split <;> exact WF_leaf _ rfl rfl)
                  refine ⟨WF.mk _ ?_ ?_, rfl⟩
                  · intro hwc
                    exact localOk_append _ _ (WF_localOk hwf hwc)
                  · exact all_WF_append _ _ (WF_children hwf) hWFc'
        · cases h
          exact ⟨WF_same n _ hwf rfl rfl, rfl⟩

theorem routePair_WF : ∀ (f : Nat),
    (∀ n path m hd n', (routePair f).1 n path m hd = .ok n' → WF n →
      WF n' ∧ n'.nType = n.nType) ∧
    (∀ n path m hd n', (routePair f).2 n path m hd = .ok n' → WF n →
      WF n' ∧ n'.nType = n.nType) := by
  intro f
  induction f with
  | zero =>
    constructor
    · intro n path m hd n' h _; cases h
    · intro n path m hd n' h _; cases h
  | succ f ih =>
    constructor
    · intro n path m hd n' h hwf
      exact insertRouteStep_WF (insertChild f) (routePair f).1
        (routePair f).2 (insertChild_WF f) ih.1 ih.2 n path m hd n' h hwf
    · intro n path m hd n' h hwf
      exact addChildRouteStep_WF (insertChild f) (routePair f).1
        (insertChild_WF f) ih.1 n path m hd n' h hwf

theorem addRoute_WF (t : Tree) (path : List Char) (hd : Nat) (t' : Tree)
    (h : addRoute t path hd = .ok t') (hwf : WF t.root) : WF t'.root := by
  simp only [addRoute] at h
  split at h
  · cases h
  · rename_i root' heq
    cases h
    exact ((routePair_WF insFuel).1 _ _ _ _ _ heq hwf).1

theorem alSet_mem (ts : Trees) (k : String) (t : Tree) :
    ∀ p ∈ alSet ts k t, p ∈ ts ∨ p = (k, t) := by
  induction ts with
  | nil =>
    intro p hp
    simp only [alSet, List.mem_singleton] at hp
    exact Or.inr hp
  | cons q rest ih =>
    obtain ⟨k', t'⟩ := q
    intro p hp
    simp only [alSet] at hp
    split at hp
    · rcases List.mem_cons.mp hp with h1 | h2
      · exact Or.inr h1
      · exact Or.inl (List.mem_cons_of_mem _ h2)
    · rcases List.mem_cons.mp hp with h1 | h2
      · exact Or.inl (h1 ▸ List.mem_cons_self _ _)
      · rcases ih p h2 with h3 | h4
        · exact Or.inl (List.mem_cons_of_mem _ h3)
        · exact Or.inr h4

theorem handle_WF (ts : Trees) (m : String) (path : List Char) (hd : Nat)
    (ts' : Trees) (h : handle ts m path hd = .ok ts')
    (hts : ∀ p ∈ ts, WF p.2.root) : ∀ p ∈ ts', WF p.2.root := by
  simp only [handle] at h
  split at h
  · split at h
    · cases h
    · rename_i tree' heq
      cases h
      intro p hp
      rcases alSet_mem ts m tree' p hp with h1 | h2
      · exact hts p h1
      · subst h2
        refine addRoute_WF _ _ _ _ heq ?_
        split
        · rename_i t hfind
          exact hts (m, t) (alFind_mem ts m t hfind)
        · exact WF_leaf _ rfl rfl
  · cases h

theorem buildRouter_go_WF :
    ∀ (ops : List (String × String × Nat)) (ts ts' : Trees),
    buildRouter.go ts ops = .ok ts' → (∀ p ∈ ts, WF p.2.root) →
    ∀ p ∈ ts', WF p.2.root := by
  intro ops
  induction ops with
  | nil =>
    intro ts ts' h hts
    cases h
    exact hts
  | cons op rest ih =>
    intro ts ts' h hts
    obtain ⟨m, p, hdl⟩ := op
    simp only [buildRouter.go] at h
    split at h
    · cases h
    · rename_i ts1 heq
      exact ih ts1 ts' h (handle_WF _ _ _ _ _ heq hts)

/-- C10: in every router built by a sequence of registrations, every
node of every method tree satisfies the wild-child invariant: whenever
`wildChild` is true the node has a first child whose type is `param` or
`catchAll`, so `getValue`'s unguarded access to `children[0]` on the
wildcard branch is in bounds. -/
theorem C10_wild_child_invariant (ops : List (String × String × Nat))
    (ts : Trees) (hb : buildRouter ops = .ok ts) :
    ∀ p ∈ ts, WF p.2.root := by
  simp only [buildRouter] at hb
  exact buildRouter_go_WF ops [] ts hb (by intro p hp; cases hp)

theorem C10_witness :
    buildRouter c10ops = .ok c10trees ∧ ∀ p ∈ c10trees, WF p.2.root :=
  ⟨rfl, C10_wild_child_invariant c10ops c10trees rfl⟩

end Ming
